import Mathlib

/-!
Shallow embedding of the rule-based extraction engine of
`MeetingTaskAssigner` (src/main.py): sentence segmentation, task-sentence
detection, description extraction, explicit-mention and skill-based
assignment, deadline pattern matching, priority classification, dependency
linking and result assembly.  Strings are modelled as `List Char`; Python
exceptions (the `IndexError` reachable through the "in N days" deadline
callback) are modelled with `Except Unit`.
-/

namespace MeetingAssigner

/-- Python strings are modelled as lists of characters. -/
abbrev Str : Type := List Char

/-- Python `str.lower()` (ASCII case folding, which is all the engine feeds it). -/
def lowerStr (s : Str) : Str := s.map Char.toLower

/-- Python `needle in hay` substring test. -/
def strContains (hay needle : Str) : Bool :=
  match hay with
  | [] => needle.isEmpty
  | _ :: t => needle.isPrefixOf hay || strContains t needle

/-- Characters matched by the regex class `\s` (ASCII part), also used by
`str.strip()` and `str.split()`. -/
def pyIsSpace (c : Char) : Bool :=
  c = ' ' || c = '\t' || c = '\n' || c = '\r' || c = '\x0b' || c = '\x0c'

/-- Python `str.strip()`. -/
def trimStr (s : Str) : Str :=
  ((s.dropWhile pyIsSpace).reverse.dropWhile pyIsSpace).reverse

/-- Splits at every character satisfying `p`, keeping empty pieces (the
callers strip and drop the empties, so runs of separators behave exactly
like `re.split` on a `[...]+` class). -/
def splitChars (p : Char → Bool) : Str → List Str
  | [] => [[]]
  | c :: cs =>
    if p c then [] :: splitChars p cs
    else
      match splitChars p cs with
      | [] => [[c]]
      | a :: as => (c :: a) :: as

/-- Python `str.split()` with no argument: split on whitespace runs, no empties. -/
def pyWords (s : Str) : List Str :=
  (splitChars pyIsSpace s).filter (fun w => !w.isEmpty)

/-- Characters matched by the regex class `\w` (ASCII part). -/
def isWordChar (c : Char) : Bool := c.isAlphanum || c = '_'

/-- Whether the character at index `i` is a word character (out of range counts
as non-word, like the ends of the subject in a regex). -/
def wordAt (s : Str) (i : Nat) : Bool :=
  ((s.get? i).map isWordChar).getD false

/-- A `\b` word boundary at position `i` of `s`. -/
def boundaryAt (s : Str) (i : Nat) : Bool :=
  (if i = 0 then false else wordAt s (i - 1)) != wordAt s i

/-- Search for `\b needle \b` inside `hay` (the explicit-mention test and the
bare day-name fallback of the deadline resolver). -/
def wholeWordContains (hay needle : Str) : Bool :=
  (List.range (hay.length + 1)).any fun i =>
    needle.isPrefixOf (hay.drop i) && boundaryAt hay i && boundaryAt hay (i + needle.length)

/-- Python `str.capitalize()`: first character upper-cased, the rest lower-cased. -/
def pyCapitalize : Str → Str
  | [] => []
  | c :: cs => c.toUpper :: cs.map Char.toLower

/-- Python truthiness of the `assigned_to` field (`None` and the empty string
are falsy). -/
def pyTruthy : Option Str → Bool
  | none => false
  | some s => !s.isEmpty

/-- Substring test against any of a list of literals (an alternation of plain
words inside a searched regex). -/
def containsAny (hay : Str) (needles : List Str) : Bool :=
  needles.any fun n => strContains hay n

/-- Search semantics of `(start|begin|starting).*?(monday|mon)`-shaped patterns:
some start word occurring, followed on the same line (`.` does not cross a
newline) by some target word. -/
def seqThen (hay : Str) (starts targets : List Str) : Bool :=
  match hay with
  | [] => false
  | _ :: t =>
    (starts.any fun a =>
      a.isPrefixOf hay &&
        targets.any fun b =>
          strContains ((hay.drop a.length).takeWhile (fun c => c ≠ '\n')) b)
    || seqThen t starts targets

/-- Leftmost match of `in (\d+) days?`: returns the tuple of captured groups
(a single group holding the digit run) as `re.Match.groups()` would. -/
def inDaysGroups (hay : Str) : Option (List Str) :=
  match hay with
  | [] => none
  | _ :: t =>
    if "in ".data.isPrefixOf hay then
      let rest := hay.drop 3
      let ds := rest.takeWhile Char.isDigit
      if !ds.isEmpty && " day".data.isPrefixOf (rest.drop ds.length) then some [ds]
      else inDaysGroups t
    else inDaysGroups t

/-- What a deadline pattern maps to: a fixed label, a callback over the
captured groups (the source's lambda), or `None` (a skip entry). -/
inductive DAction where
  | fixed (text : Str)
  | fromGroups (f : List Str → Option Str)
  | skip

/-- One entry of `deadline_patterns`: a search function standing for the
compiled regex plus its associated action. -/
structure DPattern where
  search : Str → Option (List Str)
  action : DAction

/-- Builds an entry whose regex is an alternation of literals mapped to a
fixed label. -/
def boolPat (m : Str → Bool) (text : Str) : DPattern :=
  ⟨fun s => if m s then some [] else none, .fixed text⟩

/-- The ordered `deadline_patterns` table of the source, one entry per line of
the Python list.  The `in (\d+) days?` entry keeps the source's callback
shape: the lambda receives `match.groups()` (a 1-tuple) and reads index 1,
which is out of range — modelled by `List.get? 1` returning `none`. -/
def deadline_patterns : List DPattern :=
  [ boolPat (fun s => containsAny s ["by tomorrow".data, "by tmrw".data]) "Tomorrow".data,
    boolPat (fun s => containsAny s ["tomorrow".data, "tmrw".data]) "Tomorrow".data,
    boolPat (fun s => containsAny s ["by today".data, "by tonight".data]) "Today".data,
    boolPat (fun s => containsAny s ["end of this week".data, "end of week".data]) "End of this week".data,
    boolPat (fun s => containsAny s ["by the weekend".data, "by weekend".data]) "Weekend".data,
    boolPat (fun s => containsAny s ["finish by the weekend".data, "finish by weekend".data]) "Weekend".data,
    boolPat (fun s => containsAny s ["by friday".data, "by fri".data]) "Friday".data,
    boolPat (fun s => containsAny s ["friday".data, "fri".data]) "Friday".data,
    boolPat (fun s => containsAny s ["by monday".data, "by mon".data]) "Monday".data,
    boolPat (fun s => containsAny s ["by tuesday".data, "by tue".data]) "Tuesday".data,
    boolPat (fun s => containsAny s ["by wednesday".data, "by wed".data]) "Wednesday".data,
    boolPat (fun s => containsAny s ["by thursday".data, "by thu".data]) "Thursday".data,
    boolPat (fun s => containsAny s ["by saturday".data, "by sat".data]) "Saturday".data,
    boolPat (fun s => containsAny s ["by sunday".data, "by sun".data]) "Sunday".data,
    boolPat (fun s => containsAny s ["on monday".data, "on mon".data]) "Monday".data,
    boolPat (fun s => containsAny s ["on tuesday".data, "on tue".data]) "Tuesday".data,
    boolPat (fun s => containsAny s ["on wednesday".data, "on wed".data]) "Wednesday".data,
    boolPat (fun s => containsAny s ["on thursday".data, "on thu".data]) "Thursday".data,
    boolPat (fun s => containsAny s ["on friday".data, "on fri".data]) "Friday".data,
    boolPat (fun s => containsAny s ["on saturday".data, "on sat".data]) "Saturday".data,
    boolPat (fun s => containsAny s ["on sunday".data, "on sun".data]) "Sunday".data,
    boolPat (fun s => seqThen s ["start".data, "begin".data, "starting".data] ["monday".data, "mon".data]) "Monday".data,
    boolPat (fun s => seqThen s ["start".data, "begin".data, "starting".data] ["tuesday".data, "tue".data]) "Tuesday".data,
    boolPat (fun s => seqThen s ["start".data, "begin".data, "starting".data] ["wednesday".data, "wed".data]) "Wednesday".data,
    boolPat (fun s => seqThen s ["start".data, "begin".data, "starting".data] ["thursday".data, "thu".data]) "Thursday".data,
    boolPat (fun s => seqThen s ["start".data, "begin".data, "starting".data] ["friday".data, "fri".data]) "Friday".data,
    boolPat (fun s => containsAny s ["next week".data, "next monday".data, "next tuesday".data,
      "next wednesday".data, "next thursday".data, "next friday".data, "next weekend".data]) "Next week".data,
    ⟨inDaysGroups, .fromGroups (fun gs => (gs.get? 1).map (fun d => "In ".data ++ d ++ " days".data))⟩,
    ⟨fun s => if containsAny s ["for figma".data, "for the".data, "for new".data, "for notification".data]
        then some [] else none, .skip⟩ ]

/-- The loop over `deadline_patterns` inside `_extract_deadline`: skip entries
are passed over before matching, a fixed entry returns its label on a match,
and the callback entry either returns the interpolated label or raises (the
`IndexError`, modelled as `Except.error ()`). -/
def matchPatterns : List DPattern → Str → Except Unit (Option Str)
  | [], _ => .ok none
  | p :: rest, s =>
    match p.action with
    | .skip => matchPatterns rest s
    | .fixed text =>
      match p.search s with
      | some _ => .ok (some text)
      | none => matchPatterns rest s
    | .fromGroups f =>
      match p.search s with
      | some gs =>
        match f gs with
        | some r => .ok (some r)
        | none => .error ()
      | none => matchPatterns rest s

/-- The day-name fallback table of `_extract_deadline`, in the source's
insertion order. -/
def day_names : List (Str × Str) :=
  [("monday".data, "Monday".data), ("mon".data, "Monday".data),
   ("tuesday".data, "Tuesday".data), ("tue".data, "Tuesday".data),
   ("wednesday".data, "Wednesday".data), ("wed".data, "Wednesday".data),
   ("thursday".data, "Thursday".data), ("thu".data, "Thursday".data),
   ("friday".data, "Friday".data), ("fri".data, "Friday".data),
   ("saturday".data, "Saturday".data), ("sat".data, "Saturday".data),
   ("sunday".data, "Sunday".data), ("sun".data, "Sunday".data)]

/-- `_extract_deadline`: ordered pattern scan, then bare day names as whole
words, then urgency words, then sprint phrases; `none` when nothing matches. -/
def extract_deadline (sentence : Str) : Except Unit (Option Str) :=
  let sl := lowerStr sentence
  match matchPatterns deadline_patterns sl with
  | .error e => .error e
  | .ok (some d) => .ok (some d)
  | .ok none =>
    match day_names.find? (fun p => wholeWordContains sl p.1) with
    | some p => .ok (some p.2)
    | none =>
      if ["asap".data, "urgent".data, "immediately".data, "now".data].any
          (fun w => strContains sl w) then
        .ok (some "ASAP".data)
      else if strContains sl "next sprint".data || strContains sl "next iteration".data then
        .ok (some "Next sprint".data)
      else
        .ok none

/-- One roster record `{name, role, skills}` (skills comma-separated). -/
structure TeamMember where
  name : Str
  role : Str
  skills : Str
deriving DecidableEq

/-- A candidate task produced by `_identify_tasks`. -/
structure Cand where
  sentence : Str
  sentence_index : Nat
  keyword : Str
deriving DecidableEq

/-- The task dictionary assembled in `extract_tasks_from_transcript`. -/
structure Task where
  task_id : Nat
  title : Str
  description : Str
  assigned_to : Option Str
  deadline : Option Str
  priority : Str
  dependencies : Option (List Nat)
  reasoning : Str
  context : Str
deriving DecidableEq

/-- The `{name, reasoning}` record returned by both assignment stages. -/
structure Assignment where
  name : Str
  reasoning : Str
deriving DecidableEq

/-- One entry of the result's `unassigned_tasks` list. -/
structure UnassignedTask where
  description : Str
  reason : Str
deriving DecidableEq

/-- The result document of one extraction run. -/
structure ExtractResult where
  meeting_summary : Str
  tasks : List Task
  unassigned_tasks : List UnassignedTask
deriving DecidableEq

/-- `_split_into_sentences`: `re.split` on `[.!?]+`, strip, drop empties. -/
def split_into_sentences (text : Str) : List Str :=
  ((splitChars (fun c => c = '.' || c = '!' || c = '?') text).map trimStr).filter
    (fun s => !s.isEmpty)

/-- The `task_keywords` list of the source, in order. -/
def task_keywords : List Str :=
  ["need to".data, "needs to".data, "should".data, "must".data, "have to".data, "got to".data,
   "can you".data, "could you".data, "would you".data, "please".data,
   "fix".data, "create".data, "build".data, "design".data, "develop".data, "write".data,
   "update".data, "implement".data, "review".data, "test".data, "deploy".data, "optimize".data,
   "refactor".data, "debug".data, "investigate".data, "research".data, "document".data,
   "prepare".data]

/-- `_identify_tasks`: a sentence is a candidate when its lower-cased text
contains some task keyword; the first matching keyword is recorded and the
scan of that sentence stops. -/
def identify_tasks (sentences : List Str) : List Cand :=
  sentences.enum.filterMap fun p =>
    (task_keywords.find? (fun k => strContains (lowerStr p.2) k)).map
      (fun k => ⟨p.2, p.1, k⟩)

/-- The alternation `(need to|should|must|have to|can you|could you|please)`
of the description regex, in source order. -/
def descr_indicators : List Str :=
  ["need to".data, "should".data, "must".data, "have to".data, "can you".data,
   "could you".data, "please".data]

/-- Backtracking of `\s+(.+)` after an indicator: `rest` starts right after
the matched indicator, `k` is the whitespace count currently tried (greedy,
from the maximal run downwards); `.` does not match a newline, so the
captured group runs to the end of the line. -/
def descrTail (rest : Str) : Nat → Option Str
  | 0 => none
  | k + 1 =>
    match rest.get? (k + 1) with
    | some c =>
      if c = '\n' then descrTail rest k
      else some ((rest.drop (k + 1)).takeWhile (fun d => d ≠ '\n'))
    | none => descrTail rest k

/-- Attempt of the description regex at one start position: alternatives are
tried in order; when an alternative is a (case-insensitive) prefix but
`\s+(.+)` cannot follow it, the next alternative is tried. -/
def descrAt (s : Str) : Option Str :=
  descr_indicators.findSome? fun p =>
    if p.isPrefixOf (lowerStr s) then
      let rest := s.drop p.length
      descrTail rest (rest.takeWhile (fun c => pyIsSpace c)).length
    else none

/-- `re.search` of the description regex: positions are tried left to right. -/
def descrSearch : Str → Option Str
  | [] => none
  | c :: t =>
    match descrAt (c :: t) with
    | some g => some g
    | none => descrSearch t

/-- `_extract_task_description`: strip, search for an indicator followed by
text; on a match return the captured text stripped, else the whole stripped
sentence. -/
def extract_task_description (sentence : Str) : Str :=
  let s := trimStr sentence
  match descrSearch s with
  | some g => trimStr g
  | none => s

/-- `_find_explicit_assignment`: first roster member whose lower-cased name
occurs as a whole word in the lower-cased sentence. -/
def find_explicit_assignment (sentence : Str) (team_members : List TeamMember) :
    Option Assignment :=
  let sl := lowerStr sentence
  (team_members.find? (fun m => wholeWordContains sl (lowerStr m.name))).map
    (fun m => ⟨m.name, "Explicitly mentioned in discussion".data⟩)

/-- The `role_task_mapping` table of `_assign_based_on_skills`, in insertion
order. -/
def role_task_mapping : List (Str × List Str) :=
  [("frontend".data, ["ui".data, "interface".data, "button".data, "screen".data, "page".data,
     "css".data, "react".data, "design".data]),
   ("backend".data, ["database".data, "api".data, "server".data, "endpoint".data,
     "performance".data, "optimization".data]),
   ("designer".data, ["design".data, "mockup".data, "wireframe".data, "prototype".data,
     "ux".data, "ui".data]),
   ("qa".data, ["test".data, "testing".data, "quality".data, "bug".data, "validation".data,
     "automation".data]),
   ("devops".data, ["deploy".data, "deployment".data, "infrastructure".data, "ci/cd".data,
     "docker".data])]

/-- One member's score accumulation in `_assign_based_on_skills`: the three
loops of the source, returning the final score and the matched skill tokens. -/
def scoreMember (description_lower : Str) (m : TeamMember) : ℚ × List Str :=
  let skills := splitChars (fun c => c = ',') (lowerStr m.skills)
  let afterSkills := skills.foldl
    (fun (acc : ℚ × List Str) sk =>
      let sk := trimStr sk
      if !sk.isEmpty && strContains description_lower sk then (acc.1 + 2, acc.2 ++ [sk])
      else acc)
    (0, [])
  let role_lower := lowerStr m.role
  let afterRole := (pyWords role_lower).foldl
    (fun (acc : ℚ) k => if strContains description_lower k then acc + 1 else acc)
    afterSkills.1
  let final := role_task_mapping.foldl
    (fun (acc : ℚ) rt =>
      if strContains role_lower rt.1 then
        rt.2.foldl (fun (a : ℚ) k => if strContains description_lower k then a + 3/2 else a) acc
      else acc)
    afterRole
  (final, afterSkills.2)

/-- One entry of the `scores` list of `_assign_based_on_skills`. -/
structure ScoreEntry where
  member : TeamMember
  score : ℚ
  matched_skills : List Str
deriving DecidableEq

/-- Python `max(xs, key=...)` scanning semantics: the running best is replaced
only on a strictly greater key, so the first maximum is kept. -/
def pymaxBy (key : ScoreEntry → ℚ) (best : ScoreEntry) : List ScoreEntry → ScoreEntry
  | [] => best
  | x :: xs => pymaxBy key (if key x > key best then x else best) xs

/-- `_assign_based_on_skills`: score every member, keep the positive scores,
take Python's `max` over them, and build the reasoning string.  The source's
fallback reads the loop variable `member` after the scoring loop ended, so it
names the role of the last roster member, not the winner's; `List.getLast?`
reproduces that (the `none` branch is unreachable because a non-empty score
list forces a non-empty roster). -/
def assign_based_on_skills (description : Str) (team_members : List TeamMember) :
    Option Assignment :=
  let description_lower := lowerStr description
  let scores := team_members.filterMap fun m =>
    let r := scoreMember description_lower m
    if r.1 > 0 then some ⟨m, r.1, r.2⟩ else none
  match scores with
  | [] => none
  | e :: rest =>
    let best_match := pymaxBy (fun x => x.score) e rest
    let lastRole := match team_members.getLast? with
      | some m => m.role
      | none => []
    let reasoning := "Best match based on skills: ".data ++
      (if !best_match.matched_skills.isEmpty
        then List.intercalate ", ".data best_match.matched_skills
        else lastRole)
    some ⟨best_match.member.name, reasoning⟩

/-- The `priority_keywords` dictionary of the source, in insertion order. -/
def priority_keywords : List (Str × List Str) :=
  [("critical".data, ["critical".data, "urgent".data, "asap".data, "emergency".data,
     "blocking".data, "blocker".data]),
   ("high".data, ["high priority".data, "important".data, "soon".data, "quickly".data,
     "high".data]),
   ("low".data, ["low priority".data, "whenever".data, "eventually".data,
     "nice to have".data, "low".data]),
   ("medium".data, ["medium".data, "normal".data, "regular".data])]

/-- `_determine_priority`: first keyword hit in declaration order wins, default
Medium. -/
def determine_priority (sentence : Str) : Str :=
  let sl := lowerStr sentence
  match priority_keywords.find? (fun p => p.2.any (fun k => strContains sl k)) with
  | some p => pyCapitalize p.1
  | none => "Medium".data

/-- `_generate_title`: first six whitespace-separated words, truncated to 47
characters plus an ellipsis when longer than 50. -/
def generate_title (description : Str) : Str :=
  let title := List.intercalate " ".data ((pyWords description).take 6)
  if title.length > 50 then title.take 47 ++ "...".data else title

/-- The `dependency_keywords` list of `_identify_dependencies`. -/
def dependency_keywords : List Str :=
  ["depends on".data, "after".data, "once".data, "when".data, "first".data]

/-- Whether a task's context sentence contains some dependency keyword. -/
def hasDepKeyword (context : Str) : Bool :=
  dependency_keywords.any fun k => strContains (lowerStr context) k

/-- `_identify_dependencies`: a task whose context has a dependency keyword
and a predecessor gets `dependencies = [previous task's id]`.  The source
mutates the list in place, but only the `dependencies` field is ever written
while only `task_id` of the predecessor is read, so reading ids from the
original list is equivalent. -/
def identify_dependencies (tasks : List Task) : List Task :=
  tasks.enum.map fun p =>
    if hasDepKeyword p.2.context then
      if p.1 > 0 then
        match tasks.get? (p.1 - 1) with
        | some prev => { p.2 with dependencies := some [prev.task_id] }
        | none => p.2
      else p.2
    else p.2

/-- `_generate_summary`. -/
def generate_summary (transcript : Str) (task_count : Nat) : Str :=
  "Meeting discussion with ".data ++ (Nat.repr task_count).data ++
    " tasks identified from ".data ++ (Nat.repr (split_into_sentences transcript).length).data ++
    " discussion points".data

/-- The deadline resolution of one loop iteration of
`extract_tasks_from_transcript`: the candidate's own sentence first; when that
yields nothing and this is not the first candidate (`i > 0`), the sentence at
index `max(0, sentence_index - 1)` (Nat subtraction mirrors the `max`); when
still nothing and a following sentence exists, that one. -/
def resolveDeadline (sentences : List Str) (i : Nat) (c : Cand) :
    Except Unit (Option Str) :=
  match extract_deadline c.sentence with
  | .error e => .error e
  | .ok (some d) => .ok (some d)
  | .ok none =>
    let afterPrev : Except Unit (Option Str) :=
      if i > 0 then extract_deadline (sentences.getD (c.sentence_index - 1) [])
      else .ok none
    match afterPrev with
    | .error e => .error e
    | .ok (some d) => .ok (some d)
    | .ok none =>
      if c.sentence_index < sentences.length - 1 then
        extract_deadline (sentences.getD (c.sentence_index + 1) [])
      else .ok none

/-- The body of the candidate loop of `extract_tasks_from_transcript` for the
candidate at position `i` (so `task_id = i + 1`). -/
def buildTask (sentences : List Str) (team_members : List TeamMember) (i : Nat)
    (c : Cand) : Except Unit Task :=
  let description := extract_task_description c.sentence
  let assigned :=
    match find_explicit_assignment c.sentence team_members with
    | some a => some a
    | none => assign_based_on_skills description team_members
  match resolveDeadline sentences i c with
  | .error e => .error e
  | .ok deadline =>
    .ok
      { task_id := i + 1
        title := generate_title description
        description := description
        assigned_to := assigned.map (fun a => a.name)
        deadline := deadline
        priority := determine_priority c.sentence
        dependencies := none
        reasoning :=
          match assigned with
          | some a => a.reasoning
          | none => "No suitable team member found".data
        context := c.sentence }

/-- The candidate loop itself, threading the candidate index. -/
def buildTasksAux (sentences : List Str) (team_members : List TeamMember) :
    Nat → List Cand → Except Unit (List Task)
  | _, [] => .ok []
  | i, c :: cs =>
    match buildTask sentences team_members i c with
    | .error e => .error e
    | .ok t =>
      match buildTasksAux sentences team_members (i + 1) cs with
      | .error e => .error e
      | .ok ts => .ok (t :: ts)

/-- `extract_tasks_from_transcript`: segment, detect candidates, build the
task list, link dependencies, partition into assigned and unassigned, attach
the summary. -/
def extract_tasks_from_transcript (transcript : Str)
    (team_members : List TeamMember) : Except Unit ExtractResult :=
  let sentences := split_into_sentences transcript
  let potential_tasks := identify_tasks sentences
  match buildTasksAux sentences team_members 0 potential_tasks with
  | .error e => .error e
  | .ok built =>
    let tasks := identify_dependencies built
    let unassigned := (tasks.filter (fun t => !pyTruthy t.assigned_to)).map
      (fun t => ⟨t.description, "No team member with matching skills found".data⟩)
    let assigned_tasks := tasks.filter (fun t => pyTruthy t.assigned_to)
    .ok
      { meeting_summary := generate_summary transcript tasks.length
        tasks := assigned_tasks
        unassigned_tasks := unassigned }

/-- Leftmost-position reading of the description search, written from the
amended specification words: every start position of the stripped sentence is
tried from the left, and the first position where some indicator (followed by
whitespace and same-line text) matches supplies the captured text. -/
def descrSpecSearch (t : Str) : Option Str :=
  (List.range (t.length + 1)).findSome? fun p => descrAt (t.drop p)

/-- Skill tokens of a member as the spec describes them: comma-separated,
lower-cased, stripped. -/
def specSkillTokens (m : TeamMember) : List Str :=
  (splitChars (fun c => c = ',') (lowerStr m.skills)).map trimStr

/-- Scoring formula written from the spec's words: +2 per matching non-empty
skill token, +1 per matching role word, +1.5 per matching keyword of every
role category found in the role string. -/
def skillSpecScore (description : Str) (m : TeamMember) : ℚ :=
  let dl := lowerStr description
  2 * ((specSkillTokens m).countP (fun sk => !sk.isEmpty && strContains dl sk) : ℚ)
    + ((pyWords (lowerStr m.role)).countP (fun k => strContains dl k) : ℚ)
    + 3 / 2 * (((role_task_mapping.map (fun rt =>
        if strContains (lowerStr m.role) rt.1 then rt.2.countP (fun k => strContains dl k)
        else 0)).sum : ℕ) : ℚ)

/-- Skill-based assignee written from the spec's words: members with score 0
are excluded; among the rest, the first member in roster order achieving the
maximum score wins. -/
def skillSpecWinner (description : Str) (members : List TeamMember) : Option TeamMember :=
  let pos := members.filter fun m => decide (0 < skillSpecScore description m)
  pos.find? fun m =>
    pos.all fun m2 => decide (skillSpecScore description m2 ≤ skillSpecScore description m)

/-! ### Shared helper lemmas -/

theorem buildTasksAux_ok_length (sentences : List Str) (tm : List TeamMember) :
    ∀ (cs : List Cand) (i : Nat) (ts : List Task),
      buildTasksAux sentences tm i cs = .ok ts → ts.length = cs.length := by
  intro cs
  induction cs with
  | nil =>
    intro i ts h
    unfold buildTasksAux at h
    cases h
    rfl
  | cons c cs ih =>
    intro i ts h
    unfold buildTasksAux at h
    cases hb : buildTask sentences tm i c with
    | error e => rw [hb] at h; cases h
    | ok t =>
      rw [hb] at h
      cases hr : buildTasksAux sentences tm (i + 1) cs with
      | error e => rw [hr] at h; cases h
      | ok ts2 =>
        rw [hr] at h
        cases h
        simp [ih (i + 1) ts2 hr]

theorem identify_dependencies_length (ts : List Task) :
    (identify_dependencies ts).length = ts.length := by
  unfold identify_dependencies
  simp

theorem length_filter_add_length_filter_not (p : Task → Bool) (l : List Task) :
    (l.filter p).length + (l.filter (fun a => !p a)).length = l.length := by
  induction l with
  | nil => rfl
  | cons a l ih =>
    by_cases h : p a = true
    · simp [List.filter, h, ← ih]; omega
    · simp only [Bool.not_eq_true] at h
      simp [List.filter, h, ← ih]; omega

/-! ### Claim theorems -/

/-- C1: for every transcript and roster, the number of entries in the
result's `tasks` list plus the number in its `unassigned_tasks` list equals
the number of candidate sentences flagged by the task detector (stated on
the successful outcome of the extraction; when the deadline callback raises,
both sides carry the same error). -/
theorem c1_task_partition_count (transcript : Str) (team_members : List TeamMember) :
    Except.map (fun r => r.tasks.length + r.unassigned_tasks.length)
      (extract_tasks_from_transcript transcript team_members)
      = Except.map (fun _ => (identify_tasks (split_into_sentences transcript)).length)
        (extract_tasks_from_transcript transcript team_members) := by
  unfold extract_tasks_from_transcript
  cases h : buildTasksAux (split_into_sentences transcript) team_members 0
      (identify_tasks (split_into_sentences transcript)) with
  | error e => simp only [h, Except.map]
  | ok built =>
    simp only [h, Except.map, Except.ok.injEq]
    rw [List.length_map]
    rw [length_filter_add_length_filter_not (fun t => pyTruthy t.assigned_to)]
    rw [identify_dependencies_length]
    exact buildTasksAux_ok_length _ _ _ _ _ h

/-- C4: on a sentence matching the pattern `in (\d+) days?` and no earlier
deadline pattern, the source's callback receives the groups tuple and reads
index 1, which does not exist; the call raises instead of returning the
label "In 3 days".  The first conjunct shows the pattern did match with the
captured day count. -/
theorem c4_in_days_callback_raises :
    inDaysGroups (lowerStr "complete it in 3 days".data) = some ["3".data]
    ∧ extract_deadline "complete it in 3 days".data = .error () := ⟨rfl, rfl⟩

/-- C6: skill-based reasoning fallback at a concrete input where the winner
(Sakshi, score 3 from frontend keyword hits, no matched skill tokens) is not
the last roster member: the emitted reasoning names the last member's role
"QA Engineer", not the winner's role "Frontend Developer", because the
source reads the stale scoring-loop variable after the loop. -/
theorem c6_reasoning_uses_last_member_role :
    assign_based_on_skills "fix the ui button".data
      [⟨"Sakshi".data, "Frontend Developer".data, "React".data⟩,
       ⟨"Lata".data, "QA Engineer".data, "Selenium".data⟩]
      = some ⟨"Sakshi".data, "Best match based on skills: QA Engineer".data⟩ := by
  with_unfolding_all rfl

/-- C10: end-to-end scenario of the spec: the transcript yields exactly one
assigned task, owned by Sakshi via explicit mention, priority Critical,
deadline Tomorrow (picked up from the following sentence), plus one
unassigned candidate. -/
theorem c10_end_to_end_scenario :
    Except.map
      (fun r => (r.tasks.map (fun t => (t.assigned_to, t.priority, t.deadline)),
        r.tasks.length, r.unassigned_tasks.length))
      (extract_tasks_from_transcript
        "Sakshi, we need someone to fix the critical login bug. This needs to be done by tomorrow evening.".data
        [⟨"Sakshi".data, "Frontend Developer".data, "React, JavaScript, UI bugs".data⟩])
      = .ok ([(some "Sakshi".data, "Critical".data, some "Tomorrow".data)], 1, 1) := rfl

/-- C3 counterexample: the first candidate task of this transcript sits at
sentence index 1, its own sentence yields no deadline and the immediately
preceding sentence resolves to "Tomorrow", yet the emitted task has no
deadline — the preceding-sentence fallback is guarded by the candidate
index, not the sentence index. -/
theorem c3_counterexample_first_candidate :
    Except.map (fun r => r.tasks.map Task.deadline)
      (extract_tasks_from_transcript "By tomorrow. Sakshi should fix the login".data
        [⟨"Sakshi".data, "Frontend Developer".data, "React".data⟩])
      = .ok [none]
    ∧ extract_deadline "By tomorrow".data = .ok (some "Tomorrow".data)
    ∧ (identify_tasks (split_into_sentences "By tomorrow. Sakshi should fix the login".data)).map
        Cand.sentence_index = [1] := ⟨rfl, rfl, rfl⟩

theorem buildTask_id_context (sentences : List Str) (tm : List TeamMember) (i : Nat)
    (c : Cand) (t : Task) (h : buildTask sentences tm i c = .ok t) :
    t.task_id = i + 1 ∧ t.context = c.sentence := by
  simp only [buildTask] at h
  cases hd : resolveDeadline sentences i c with
  | error e => rw [hd] at h; exact Except.noConfusion h
  | ok dl =>
    rw [hd] at h
    cases h
    exact ⟨rfl, rfl⟩

theorem buildTasksAux_get (sentences : List Str) (tm : List TeamMember) :
    ∀ (cs : List Cand) (i : Nat) (ts : List Task),
      buildTasksAux sentences tm i cs = .ok ts →
      ∀ j t, ts.get? j = some t →
        t.task_id = i + j + 1 ∧ ∃ c, cs.get? j = some c ∧ t.context = c.sentence := by
  intro cs
  induction cs with
  | nil =>
    intro i ts h j t hj
    unfold buildTasksAux at h
    cases h
    simp at hj
  | cons c cs ih =>
    intro i ts h j t hj
    unfold buildTasksAux at h
    cases hb : buildTask sentences tm i c with
    | error e => rw [hb] at h; exact Except.noConfusion h
    | ok t0 =>
      rw [hb] at h
      cases hr : buildTasksAux sentences tm (i + 1) cs with
      | error e => rw [hr] at h; exact Except.noConfusion h
      | ok ts2 =>
        rw [hr] at h
        cases h
        cases j with
        | zero =>
          simp only [List.get?] at hj
          cases hj
          obtain ⟨h1, h2⟩ := buildTask_id_context sentences tm i c t hb
          exact ⟨by omega, c, rfl, h2⟩
        | succ j =>
          simp only [List.get?] at hj
          obtain ⟨h1, c2, hc2, hctx⟩ := ih (i + 1) ts2 hr j t hj
          refine ⟨by omega, c2, ?_, hctx⟩
          simpa using hc2

theorem identify_dependencies_get (ts : List Task) (j : Nat) :
    ((identify_dependencies ts).get? j).map (fun t => (t.task_id, t.context, t.assigned_to))
      = (ts.get? j).map (fun t => (t.task_id, t.context, t.assigned_to)) := by
  unfold identify_dependencies
  rw [List.get?_map, List.get?_enum]
  cases h : ts.get? j with
  | none => rfl
  | some t =>
    simp only [Option.map_some']
    split
    · split
      · split
        · rfl
        · rfl
      · rfl
    · rfl

/-- C8: in every successful extraction, the emitted tasks carry pairwise
strictly increasing (hence unique) ids, no emitted task lacks an assignee,
and the task with id `k` was built from the `k`-th detected candidate (its
context is that candidate's sentence). -/
theorem c8_ids_unique_and_assigned (transcript : Str) (tm : List TeamMember)
    (r : ExtractResult) (h : extract_tasks_from_transcript transcript tm = .ok r) :
    List.Pairwise (fun a b => a < b) (r.tasks.map Task.task_id)
    ∧ (∀ t ∈ r.tasks, t.assigned_to ≠ none)
    ∧ (∀ t ∈ r.tasks,
        ∃ c, (identify_tasks (split_into_sentences transcript)).get? (t.task_id - 1) = some c
          ∧ t.context = c.sentence) := by
  unfold extract_tasks_from_transcript at h
  cases hb : buildTasksAux (split_into_sentences transcript) tm 0
      (identify_tasks (split_into_sentences transcript)) with
  | error e => simp only [hb] at h; exact Except.noConfusion h
  | ok built =>
    simp only [hb] at h
    cases h
    have key : ∀ j t, (identify_dependencies built).get? j = some t →
        t.task_id = j + 1 ∧
          ∃ c, (identify_tasks (split_into_sentences transcript)).get? j = some c
            ∧ t.context = c.sentence := by
      intro j t hj
      have hproj := identify_dependencies_get built j
      rw [hj] at hproj
      cases hb2 : built.get? j with
      | none => rw [hb2] at hproj; exact Option.noConfusion hproj
      | some t0 =>
        rw [hb2] at hproj
        simp only [Option.map_some', Option.some.injEq, Prod.mk.injEq] at hproj
        obtain ⟨hid, hctx, _⟩ := hproj
        obtain ⟨h1, c, hc, hcs⟩ := buildTasksAux_get _ _ _ _ _ hb j t0 hb2
        exact ⟨by omega, c, hc, by rw [hctx, hcs]⟩
    refine ⟨?_, ?_, ?_⟩
    · have hpw : List.Pairwise (fun a b => a.task_id < b.task_id)
          (identify_dependencies built) := by
        rw [List.pairwise_iff_get]
        intro i j hij
        have hi := key i ((identify_dependencies built).get i)
          (List.get?_eq_get i.isLt)
        have hj := key j ((identify_dependencies built).get j)
          (List.get?_eq_get j.isLt)
        omega
      have hsub : List.Pairwise (fun a b => a.task_id < b.task_id)
          ((identify_dependencies built).filter (fun t => pyTruthy t.assigned_to)) :=
        hpw.sublist (List.filter_sublist _)
      simpa [List.pairwise_map] using hsub
    · intro t ht
      have := (List.mem_filter.1 ht).2
      intro hnone
      rw [hnone] at this
      simp [pyTruthy] at this
    · intro t ht
      have hmem := (List.mem_filter.1 ht).1
      obtain ⟨j, hj⟩ := List.mem_iff_get?.1 hmem
      obtain ⟨hid, c, hc, hcs⟩ := key j t hj
      have : t.task_id - 1 = j := by omega
      rw [this]
      exact ⟨c, hc, hcs⟩

/-- C8 witness: a concrete run with one explicitly assigned task. -/
theorem c8_ids_unique_and_assigned_witness :
    List.Pairwise (fun a b => a < b)
      ((ExtractResult.mk
        "Meeting discussion with 1 tasks identified from 1 discussion points".data
        [⟨1, "fix it".data, "fix it".data, some "Sakshi".data, none, "Medium".data, none,
          "Explicitly mentioned in discussion".data, "Sakshi must fix it".data⟩]
        []).tasks.map Task.task_id)
    ∧ (∀ t ∈ (ExtractResult.mk
        "Meeting discussion with 1 tasks identified from 1 discussion points".data
        [⟨1, "fix it".data, "fix it".data, some "Sakshi".data, none, "Medium".data, none,
          "Explicitly mentioned in discussion".data, "Sakshi must fix it".data⟩]
        []).tasks, t.assigned_to ≠ none)
    ∧ (∀ t ∈ (ExtractResult.mk
        "Meeting discussion with 1 tasks identified from 1 discussion points".data
        [⟨1, "fix it".data, "fix it".data, some "Sakshi".data, none, "Medium".data, none,
          "Explicitly mentioned in discussion".data, "Sakshi must fix it".data⟩]
        []).tasks,
        ∃ c, (identify_tasks (split_into_sentences "Sakshi must fix it".data)).get?
            (t.task_id - 1) = some c ∧ t.context = c.sentence) :=
  c8_ids_unique_and_assigned "Sakshi must fix it".data
    [⟨"Sakshi".data, "Frontend Developer".data, "React, JavaScript, UI bugs".data⟩]
    (ExtractResult.mk
      "Meeting discussion with 1 tasks identified from 1 discussion points".data
      [⟨1, "fix it".data, "fix it".data, some "Sakshi".data, none, "Medium".data, none,
        "Explicitly mentioned in discussion".data, "Sakshi must fix it".data⟩]
      []) rfl

theorem find?_of_first (p : α → Bool) :
    ∀ (l : List α) (k : Nat) (a : α), l.get? k = some a → p a = true →
      (∀ j, j < k → ∀ b, l.get? j = some b → p b = false) → l.find? p = some a := by
  intro l
  induction l with
  | nil => intro k a hk; simp at hk
  | cons x xs ih =>
    intro k a hk hp hfirst
    cases k with
    | zero =>
      simp only [List.get?] at hk
      cases hk
      simp [List.find?, hp]
    | succ k =>
      simp only [List.get?] at hk
      have hx : p x = false := hfirst 0 (Nat.succ_pos k) x rfl
      rw [List.find?, hx]
      exact ih k a hk hp fun j hj b hb => hfirst (j + 1) (by omega) b hb

/-- The deadline field of a built task is exactly the resolver's outcome. -/
theorem buildTask_deadline (sentences : List Str) (tm : List TeamMember) (i : Nat)
    (c : Cand) :
    Except.map Task.deadline (buildTask sentences tm i c) = resolveDeadline sentences i c := by
  simp only [buildTask]
  cases hd : resolveDeadline sentences i c with
  | error e => rfl
  | ok dl => rfl

/-- C2: when the first roster member (in roster order) whose lower-cased name
occurs as a whole word in the candidate sentence is `m`, the built task is
assigned to `m` with the fixed reasoning text, whatever the skill scores of
any member are (the conclusion does not depend on the skill-scoring stage at
all). -/
theorem c2_explicit_mention_precedence (sentences : List Str) (tm : List TeamMember)
    (i k : Nat) (c : Cand) (m : TeamMember)
    (hk : tm.get? k = some m)
    (hm : wholeWordContains (lowerStr c.sentence) (lowerStr m.name) = true)
    (hfirst : ∀ j, j < k → ∀ m2, tm.get? j = some m2 →
      wholeWordContains (lowerStr c.sentence) (lowerStr m2.name) = false)
    (t : Task) (ht : buildTask sentences tm i c = .ok t) :
    t.assigned_to = some m.name
      ∧ t.reasoning = "Explicitly mentioned in discussion".data := by
  have hfind : find_explicit_assignment c.sentence tm
      = some ⟨m.name, "Explicitly mentioned in discussion".data⟩ := by
    have hf := find?_of_first
      (fun m2 => wholeWordContains (lowerStr c.sentence) (lowerStr m2.name)) tm k m hk hm hfirst
    simp only [find_explicit_assignment]
    rw [hf]
    rfl
  simp only [buildTask, hfind] at ht
  cases hd : resolveDeadline sentences i c with
  | error e => rw [hd] at ht; exact Except.noConfusion ht
  | ok dl =>
    rw [hd] at ht
    cases ht
    exact ⟨rfl, rfl⟩

/-- C2 witness: Lata is the first whole-word-mentioned member (Sakshi, who
precedes her in the roster, is not mentioned), and the built task carries
her name and the fixed reasoning. -/
theorem c2_explicit_mention_precedence_witness :
    (buildTask ["Lata should test it".data]
        [⟨"Sakshi".data, "Frontend Developer".data, "React".data⟩,
         ⟨"Lata".data, "QA Engineer".data, "Selenium".data⟩]
        0 ⟨"Lata should test it".data, 0, "should".data⟩
      = .ok ⟨1, "test it".data, "test it".data, some "Lata".data, none, "Medium".data, none,
          "Explicitly mentioned in discussion".data, "Lata should test it".data⟩)
    ∧ (some "Lata".data : Option Str)
        = some (TeamMember.mk "Lata".data "QA Engineer".data "Selenium".data).name
    ∧ (Task.mk 1 "test it".data "test it".data (some "Lata".data) none "Medium".data none
        "Explicitly mentioned in discussion".data "Lata should test it".data).assigned_to
        = some (TeamMember.mk "Lata".data "QA Engineer".data "Selenium".data).name
    ∧ (Task.mk 1 "test it".data "test it".data (some "Lata".data) none "Medium".data none
        "Explicitly mentioned in discussion".data "Lata should test it".data).reasoning
        = "Explicitly mentioned in discussion".data := by
  refine ⟨rfl, rfl, ?_⟩
  exact c2_explicit_mention_precedence ["Lata should test it".data]
    [⟨"Sakshi".data, "Frontend Developer".data, "React".data⟩,
     ⟨"Lata".data, "QA Engineer".data, "Selenium".data⟩]
    0 1 ⟨"Lata should test it".data, 0, "should".data⟩
    (TeamMember.mk "Lata".data "QA Engineer".data "Selenium".data)
    rfl rfl
    (by
      intro j hj m2 hb
      have hj0 : j = 0 := by omega
      subst hj0
      simp only [List.get?] at hb
      cases hb
      rfl)
    _ rfl

/-- C3 (amended): with no deadline on the candidate's own sentence, the
preceding-sentence fallback fires only when the candidate is not the first
candidate task (`i > 0`) — not whenever a preceding sentence exists — using
the sentence at index `max(0, sentence_index - 1)`; then the following
sentence is consulted when one exists; the first non-empty result wins, and
the deadline stays absent when both steps yield nothing. -/
theorem c3_amended_deadline_fallback (sentences : List Str) (tm : List TeamMember)
    (i : Nat) (c : Cand) (d : Str)
    (hown : extract_deadline c.sentence = .ok none) :
    (0 < i → extract_deadline (sentences.getD (c.sentence_index - 1) []) = .ok (some d) →
      Except.map Task.deadline (buildTask sentences tm i c) = .ok (some d))
    ∧ ((0 < i → extract_deadline (sentences.getD (c.sentence_index - 1) []) = .ok none) →
      c.sentence_index < sentences.length - 1 →
      extract_deadline (sentences.getD (c.sentence_index + 1) []) = .ok (some d) →
      Except.map Task.deadline (buildTask sentences tm i c) = .ok (some d))
    ∧ ((0 < i → extract_deadline (sentences.getD (c.sentence_index - 1) []) = .ok none) →
      (c.sentence_index < sentences.length - 1 →
        extract_deadline (sentences.getD (c.sentence_index + 1) []) = .ok none) →
      Except.map Task.deadline (buildTask sentences tm i c) = .ok none) := by
  rw [buildTask_deadline]
  refine ⟨?_, ?_, ?_⟩
  · intro hi hprev
    simp only [resolveDeadline, hown, hi, if_true, hprev]
  · intro hprev hnextlt hnext
    by_cases hi : 0 < i
    · simp only [resolveDeadline, hown, hi, if_true, hprev hi, hnextlt, hnext]
    · simp only [resolveDeadline, hown, hi, if_false, hnextlt, hnext]
      rfl
  · intro hprev hnext
    by_cases hi : 0 < i
    · by_cases hlt : c.sentence_index < sentences.length - 1
      · simp only [resolveDeadline, hown, hi, if_true, hprev hi, hlt, hnext hlt]
      · simp only [resolveDeadline, hown, hi, if_true, hprev hi, hlt, if_false]
    · by_cases hlt : c.sentence_index < sentences.length - 1
      · simp only [resolveDeadline, hown, hi, if_false, hlt, if_true, hnext hlt]
      · simp only [resolveDeadline, hown, hi, hlt, if_false]

/-- C3 witness: a non-first candidate (`i = 1`) at sentence index 1 with no
deadline of its own inherits "Tomorrow" from the preceding sentence. -/
theorem c3_amended_deadline_fallback_witness :
    Except.map Task.deadline
      (buildTask ["By tomorrow".data, "Also fix it".data] [] 1
        ⟨"Also fix it".data, 1, "fix".data⟩)
      = .ok (some "Tomorrow".data) :=
  (c3_amended_deadline_fallback ["By tomorrow".data, "Also fix it".data] [] 1
    ⟨"Also fix it".data, 1, "fix".data⟩ "Tomorrow".data rfl).1 (by decide) rfl

/-- C9: a task whose context contains a dependency keyword gets the single
dependency `[previous task's id]` exactly when a preceding task exists; the
first task never gets one, and tasks without a keyword keep their (absent)
dependencies. -/
theorem c9_dependency_linking (ts : List Task) (j : Nat) (t : Task)
    (hdeps : ∀ u ∈ ts, u.dependencies = none)
    (hj : ts.get? j = some t) :
    (hasDepKeyword t.context = true → 0 < j → ∀ p, ts.get? (j - 1) = some p →
      (identify_dependencies ts).get? j
        = some { t with dependencies := some [p.task_id] })
    ∧ (hasDepKeyword t.context = true → j = 0 →
      (identify_dependencies ts).get? j = some t ∧ t.dependencies = none)
    ∧ (hasDepKeyword t.context = false →
      (identify_dependencies ts).get? j = some t ∧ t.dependencies = none) := by
  have hmem : t ∈ ts := by
    have := List.get?_eq_some.1 hj
    obtain ⟨hlt, hget⟩ := this
    exact hget ▸ List.get_mem ts j hlt
  have hnone : t.dependencies = none := hdeps t hmem
  have hbase : (identify_dependencies ts).get? j
      = (ts.get? j).map (fun u =>
          if hasDepKeyword u.context then
            if j > 0 then
              match ts.get? (j - 1) with
              | some prev => { u with dependencies := some [prev.task_id] }
              | none => u
            else u
          else u) := by
    unfold identify_dependencies
    rw [List.get?_map, List.get?_enum]
    cases ts.get? j <;> rfl
  rw [hj] at hbase
  refine ⟨?_, ?_, ?_⟩
  · intro hkw hpos p hp
    have hp2 : ts[j - 1]? = some p := by rw [← List.get?_eq_getElem?]; exact hp
    rw [hbase, Option.map_some']
    simp [hkw, hpos, hp2]
  · intro hkw hzero
    subst hzero
    rw [hbase, Option.map_some']
    simp [hkw]
    exact hnone
  · intro hkw
    rw [hbase, Option.map_some']
    simp [hkw]
    exact hnone

/-- C9 witness: the second of two tasks, whose context contains "after",
receives the first task's id as its only dependency. -/
theorem c9_dependency_linking_witness :
    (identify_dependencies
        [⟨1, [], [], none, none, "Medium".data, none, [], "Do A".data⟩,
         ⟨2, [], [], none, none, "Medium".data, none, [], "After that do B".data⟩]).get? 1
      = some ⟨2, [], [], none, none, "Medium".data, some [1], [], "After that do B".data⟩ :=
  (c9_dependency_linking
    [⟨1, [], [], none, none, "Medium".data, none, [], "Do A".data⟩,
     ⟨2, [], [], none, none, "Medium".data, none, [], "After that do B".data⟩]
    1 ⟨2, [], [], none, none, "Medium".data, none, [], "After that do B".data⟩
    (by intro u hu; fin_cases hu <;> rfl) rfl).1 rfl (by decide)
    ⟨1, [], [], none, none, "Medium".data, none, [], "Do A".data⟩ rfl

/-- C7 counterexample: the indicator "should" occurs only mid-sentence, so
the claim predicts the description is the full sentence; the code's
`re.search` finds the indicator anywhere and returns the text after it. -/
theorem c7_counterexample_mid_sentence :
    extract_task_description "You should deploy the app".data = "deploy the app".data
    ∧ "deploy the app".data ≠ "You should deploy the app".data := ⟨rfl, by decide⟩

theorem findSome?_map_succ (f : Nat → Option Str) (l : List Nat) :
    (l.map Nat.succ).findSome? f = l.findSome? (fun n => f (n + 1)) := by
  induction l with
  | nil => rfl
  | cons a l ih =>
    rw [List.map_cons, List.findSome?_cons, List.findSome?_cons]
    cases f (a + 1) <;> simp_all

theorem descrSearch_eq_spec : ∀ t : Str, descrSearch t = descrSpecSearch t := by
  intro t
  induction t with
  | nil => rfl
  | cons c t ih =>
    have lhs : descrSearch (c :: t) = match descrAt (c :: t) with
        | some g => some g
        | none => descrSearch t := rfl
    rw [lhs]
    unfold descrSpecSearch
    rw [List.length_cons, List.range_succ_eq_map, List.findSome?_cons, List.drop_zero]
    cases h : descrAt (c :: t) with
    | some g => rfl
    | none =>
      rw [findSome?_map_succ, ih]
      unfold descrSpecSearch
      simp only [List.drop_succ_cons]

/-- C7 (amended): the indicator phrase is searched anywhere in the stripped
sentence, not only in leading position: the leftmost position where some
indicator phrase is followed by whitespace and same-line text determines the
description (that captured text, trimmed); when no position matches, the
description is the full stripped sentence. -/
theorem c7_description_leftmost_indicator (sentence : Str) :
    extract_task_description sentence =
      match descrSpecSearch (trimStr sentence) with
      | some g => trimStr g
      | none => trimStr sentence := by
  simp only [extract_task_description, descrSearch_eq_spec]

theorem foldl_count_add (p : Str → Bool) (cst : ℚ) :
    ∀ (l : List Str) (a : ℚ),
      l.foldl (fun acc k => if p k then acc + cst else acc) a
        = a + cst * (l.countP p : ℚ) := by
  intro l
  induction l with
  | nil => intro a; simp
  | cons x l ih =>
    intro a
    rw [List.foldl_cons, List.countP_cons]
    cases h : p x with
    | true =>
      simp only [h, if_true, ih]
      push_cast
      ring
    | false =>
      simp only [h, if_false, ih]
      push_cast
      ring

theorem foldl_cat_add (q : Str × List Str → Bool) (p : Str → Bool) :
    ∀ (l : List (Str × List Str)) (a : ℚ),
      l.foldl (fun acc rt =>
          if q rt then rt.2.foldl (fun a2 k => if p k then a2 + 3 / 2 else a2) acc else acc) a
        = a + 3 / 2 * (((l.map (fun rt => if q rt then rt.2.countP p else 0)).sum : ℕ) : ℚ) := by
  intro l
  induction l with
  | nil => intro a; simp
  | cons x l ih =>
    intro a
    rw [List.foldl_cons, List.map_cons, List.sum_cons]
    cases h : q x with
    | true =>
      simp only [h, if_true]
      rw [ih, foldl_count_add]
      push_cast
      ring
    | false =>
      simp only [h, Bool.false_eq_true, if_false]
      rw [ih]
      push_cast
      ring

theorem foldl_skills_fst (dl : Str) :
    ∀ (l : List Str) (acc : ℚ × List Str),
      (l.foldl (fun acc sk =>
          let sk := trimStr sk
          if !sk.isEmpty && strContains dl sk then (acc.1 + 2, acc.2 ++ [sk]) else acc) acc).1
        = acc.1 + 2 * (l.countP
            (fun sk => !(trimStr sk).isEmpty && strContains dl (trimStr sk)) : ℚ) := by
  intro l
  induction l with
  | nil => intro acc; simp
  | cons x l ih =>
    intro acc
    rw [List.foldl_cons, List.countP_cons]
    dsimp only
    cases h : !(trimStr x).isEmpty && strContains dl (trimStr x) with
    | true =>
      simp only [h, if_true, ih]
      push_cast
      ring
    | false =>
      simp only [h, if_false, ih]
      push_cast
      ring

theorem scoreMember_fst (dl : Str) (m : TeamMember) :
    (scoreMember dl m).1
      = 2 * ((splitChars (fun c => c = ',') (lowerStr m.skills)).countP
            (fun sk => !(trimStr sk).isEmpty && strContains dl (trimStr sk)) : ℚ)
        + ((pyWords (lowerStr m.role)).countP (fun k => strContains dl k) : ℚ)
        + 3 / 2 * (((role_task_mapping.map (fun rt =>
            if strContains (lowerStr m.role) rt.1 then rt.2.countP (fun k => strContains dl k)
            else 0)).sum : ℕ) : ℚ) := by
  simp only [scoreMember]
  rw [foldl_cat_add, foldl_count_add, foldl_skills_fst]
  ring

theorem skillSpecScore_eq (description : Str) (m : TeamMember) :
    skillSpecScore description m = (scoreMember (lowerStr description) m).1 := by
  rw [scoreMember_fst]
  simp only [skillSpecScore, specSkillTokens, List.countP_map]
  have hcomp : ((fun sk => !List.isEmpty sk && strContains (lowerStr description) sk) ∘ trimStr)
      = fun sk => !(trimStr sk).isEmpty && strContains (lowerStr description) (trimStr sk) := rfl
  rw [hcomp]

theorem scores_filterMap_eq (dl : Str) :
    ∀ l : List TeamMember,
      (l.filterMap fun m =>
        let r := scoreMember dl m
        if r.1 > 0 then some (ScoreEntry.mk m r.1 r.2) else none)
      = (l.filter fun m => decide (0 < (scoreMember dl m).1)).map
          (fun m => ScoreEntry.mk m (scoreMember dl m).1 (scoreMember dl m).2) := by
  intro l
  induction l with
  | nil => rfl
  | cons x l ih =>
    rw [List.filterMap_cons, List.filter_cons]
    dsimp only
    by_cases h : 0 < (scoreMember dl x).1
    · rw [if_pos h, if_pos (decide_eq_true h), List.map_cons, ih]
    · rw [if_neg h, if_neg (fun hc => h (of_decide_eq_true hc)), ih]

theorem pymaxBy_of_all_le (key : ScoreEntry → ℚ) :
    ∀ (xs : List ScoreEntry) (e : ScoreEntry),
      (∀ x ∈ xs, key x ≤ key e) → pymaxBy key e xs = e := by
  intro xs
  induction xs with
  | nil => intro e _; rfl
  | cons x xs ih =>
    intro e h
    show pymaxBy key (if key x > key e then x else e) xs = e
    rw [if_neg (not_lt.2 (h x (List.mem_cons_self x xs)))]
    exact ih e fun y hy => h y (List.mem_cons_of_mem x hy)

theorem pymaxBy_first_max (key : ScoreEntry → ℚ) :
    ∀ (pre : List ScoreEntry) (e em : ScoreEntry) (post : List ScoreEntry),
      key e < key em → (∀ x ∈ pre, key x < key em) → (∀ x ∈ post, key x ≤ key em) →
      pymaxBy key e (pre ++ em :: post) = em := by
  intro pre
  induction pre with
  | nil =>
    intro e em post he _ hpost
    rw [List.nil_append]
    show pymaxBy key (if key em > key e then em else e) post = em
    rw [if_pos he]
    exact pymaxBy_of_all_le key post em hpost
  | cons p pre ih =>
    intro e em post he hpre hpost
    rw [List.cons_append]
    show pymaxBy key (if key p > key e then p else e) (pre ++ em :: post) = em
    by_cases h : key p > key e
    · rw [if_pos h]
      exact ih p em post (hpre p (List.mem_cons_self p pre))
        (fun x hx => hpre x (List.mem_cons_of_mem p hx)) hpost
    · rw [if_neg h]
      exact ih e em post he (fun x hx => hpre x (List.mem_cons_of_mem p hx)) hpost

theorem exists_first_max (f : TeamMember → ℚ) :
    ∀ (l : List TeamMember) (a : TeamMember),
      ∃ pre w post, a :: l = pre ++ w :: post
        ∧ (∀ x ∈ pre, f x < f w) ∧ (∀ x ∈ a :: l, f x ≤ f w) := by
  intro l
  induction l with
  | nil =>
    intro a
    refine ⟨[], a, [], rfl, by simp, ?_⟩
    intro x hx
    rw [List.mem_singleton] at hx
    subst hx
    exact le_refl _
  | cons b l ih =>
    intro a
    obtain ⟨pre, w, post, heq, hpre, hall⟩ := ih b
    by_cases h : f w ≤ f a
    · refine ⟨[], a, b :: l, rfl, by simp, ?_⟩
      intro x hx
      rcases List.mem_cons.1 hx with hx | hx
      · subst hx; exact le_refl _
      · exact le_trans (hall x hx) h
    · push_neg at h
      refine ⟨a :: pre, w, post, ?_, ?_, ?_⟩
      · rw [List.cons_append, ← heq]
      · intro x hx
        rcases List.mem_cons.1 hx with hx | hx
        · subst hx; exact h
        · exact hpre x hx
      · intro x hx
        rcases List.mem_cons.1 hx with hx | hx
        · subst hx; exact le_of_lt h
        · exact hall x hx

theorem find?_append_of_prefix_false (p : TeamMember → Bool) :
    ∀ (pre : List TeamMember) (w : TeamMember) (post : List TeamMember),
      (∀ x ∈ pre, p x = false) → p w = true →
      (pre ++ w :: post).find? p = some w := by
  intro pre
  induction pre with
  | nil =>
    intro w post _ hw
    rw [List.nil_append]
    exact List.find?_cons_of_pos _ hw
  | cons a pre ih =>
    intro w post hpre hw
    rw [List.cons_append,
      List.find?_cons_of_neg _ (by simp [hpre a (List.mem_cons_self a pre)])]
    exact ih w post (fun x hx => hpre x (List.mem_cons_of_mem a hx)) hw

theorem assign_name_eq_match (description : Str) (members : List TeamMember) :
    (assign_based_on_skills description members).map Assignment.name
      = (match members.filterMap (fun m =>
            let r := scoreMember (lowerStr description) m
            if r.1 > 0 then some (ScoreEntry.mk m r.1 r.2) else none) with
        | [] => (none : Option Str)
        | e :: rest => some (pymaxBy (fun x => x.score) e rest).member.name) := by
  simp only [assign_based_on_skills]
  cases h : members.filterMap (fun m =>
      let r := scoreMember (lowerStr description) m
      if r.1 > 0 then some (ScoreEntry.mk m r.1 r.2) else none) with
  | nil => rfl
  | cons e rest => rfl

theorem pymax_name_eq_find? (F : TeamMember → ℚ) (G : TeamMember → List Str)
    (pos : List TeamMember) :
    (match pos.map (fun m => ScoreEntry.mk m (F m) (G m)) with
      | [] => (none : Option Str)
      | e :: rest => some (pymaxBy (fun x => x.score) e rest).member.name)
    = (pos.find? fun m => pos.all fun m2 => decide (F m2 ≤ F m)).map TeamMember.name := by
  cases pos with
  | nil => rfl
  | cons a l =>
    obtain ⟨pre, w, post, heq, hpre, hall⟩ := exists_first_max F l a
    have hfind : ((a :: l).find? fun m =>
        (a :: l).all fun m2 => decide (F m2 ≤ F m)) = some w := by
      rw [heq]
      apply find?_append_of_prefix_false
      · intro x hx
        rw [Bool.eq_false_iff]
        intro hallx
        rw [List.all_eq_true] at hallx
        have hwx := hallx w (List.mem_append_right pre (List.mem_cons_self w post))
        rw [decide_eq_true_eq] at hwx
        exact absurd hwx (not_le.2 (hpre x hx))
      · rw [List.all_eq_true]
        intro m2 hm2
        rw [decide_eq_true_eq]
        refine hall m2 ?_
        rw [heq]
        exact hm2
    rw [hfind, Option.map_some']
    have hallmem : ∀ m ∈ post, F m ≤ F w := by
      intro m hm
      refine hall m ?_
      rw [heq]
      exact List.mem_append_right pre (List.mem_cons_of_mem w hm)
    rw [heq, List.map_append, List.map_cons]
    cases pre with
    | nil =>
      rw [List.map_nil, List.nil_append]
      dsimp only
      rw [pymaxBy_of_all_le]
      intro x hx
      obtain ⟨m, hm, rfl⟩ := List.mem_map.1 hx
      exact hallmem m hm
    | cons p pre2 =>
      rw [List.map_cons, List.cons_append]
      dsimp only
      rw [pymaxBy_first_max]
      · exact hpre p (List.mem_cons_self p pre2)
      · intro x hx
        obtain ⟨m, hm, rfl⟩ := List.mem_map.1 hx
        exact hpre m (List.mem_cons_of_mem p hm)
      · intro x hx
        obtain ⟨m, hm, rfl⟩ := List.mem_map.1 hx
        exact hallmem m hm

/-- C5: the skill-based assignment (reached only when no explicit mention
fires) selects exactly the member the spec describes: members are scored by
the +2 / +1 / +1.5 formula over the lower-cased description, members with
score 0 drop out, an empty field yields no assignee, and otherwise the first
member in roster order achieving the maximum score wins (the strictly-greater
scan of Python's `max` keeps the first maximum). -/
theorem c5_skill_scoring_selection (description : Str) (members : List TeamMember) :
    (assign_based_on_skills description members).map Assignment.name
      = (skillSpecWinner description members).map TeamMember.name := by
  rw [assign_name_eq_match, scores_filterMap_eq]
  simp only [skillSpecWinner, skillSpecScore_eq]
  exact pymax_name_eq_find? (fun m => (scoreMember (lowerStr description) m).1)
    (fun m => (scoreMember (lowerStr description) m).2)
    (members.filter fun m => decide (0 < (scoreMember (lowerStr description) m).1))

end MeetingAssigner
